import Mathlib

set_option linter.unusedSectionVars false

/-!
Verification of the mpml meta-programming mini library (`src/include/mpml.h`,
version 1.1, namespace `qcstudio::mpml`).

A C++ `typelist<TS...>` is embedded as a `List α` over a token type `α` with
decidable equality (type identity of the C++ types).  Each template
metafunction of the source becomes a Lean function on lists; the externally
injected subtype relation `std::is_base_of` becomes an explicit parameter
`cmp : α → α → Bool`.  The macro-based registry (`MPML_DECLARE` / `MPML_ADD` /
the `_mpml_read` resolver) is embedded as a sparse history `ℕ → Option (List α)`
indexed by `__COUNTER__` points.
-/

namespace qcstudio.mpml

variable {α : Type} [DecidableEq α]

/-- `find<TYPE, TYPELIST, N>` of mpml.h (lines 96-100): index of the first
occurrence of `t`, with base case `-(N + 1)` on the empty list and `1 + ...`
on a mismatching head.  `N` is the `int` template parameter. -/
def find (t : α) (l : List α) (N : ℤ) : ℤ :=
  match l with
  | [] => -(N + 1)
  | x :: xs => if x = t then 0 else 1 + find t xs N

/-- The top-level `find_v<TYPE, TYPELIST>`: the counter parameter `N` defaults
to `TYPELIST::size`. -/
def find_v (t : α) (l : List α) : ℤ :=
  find t l l.length

/-- `contains<TYPE, TYPELIST>` of mpml.h (line 104): `find_v != -1`. -/
def contains (t : α) (l : List α) : Bool :=
  decide (find_v t l ≠ -1)

/-- `concat` of mpml.h (lines 109-114). -/
def concat (l1 l2 : List α) : List α :=
  l1 ++ l2

/-- `invert` of mpml.h (lines 118-125). -/
def invert : List α → List α
  | [] => []
  | x :: xs => concat (invert xs) [x]

/-- `push_front` of mpml.h (lines 129-133). -/
def push_front (t : α) (l : List α) : List α :=
  t :: l

/-- `push_back` of mpml.h (lines 137-141). -/
def push_back (t : α) (l : List α) : List α :=
  l ++ [t]

/-- `pop_front` of mpml.h (lines 145-152): the empty list maps to itself. -/
def pop_front : List α → List α
  | [] => []
  | _ :: xs => xs

/-- `pop_back` of mpml.h (line 156), exactly as the source defines it:
`pop_back<TYPELIST> = pop_front<invert_t<TYPELIST>>` — note that the source
does not invert the list back afterwards. -/
def pop_back (l : List α) : List α :=
  pop_front (invert l)

/-- `remove_all<TYPE, TYPELIST>` of mpml.h (lines 185-196): every occurrence
of `t` is removed (the source compares with `is_same_v<TYPE, U>`). -/
def remove_all (t : α) : List α → List α
  | [] => []
  | u :: us => if t = u then remove_all t us else u :: remove_all t us

/-- Fuel-indexed body of `remove_duplicates` of mpml.h (lines 205-217).  The
template recursion descends to `remove_duplicates<remove_all_t<T, TS...>>`,
which is not structural; the fuel argument (always instantiated to the list
length, which bounds the recursion depth) makes the embedding structural.  The
three list cases mirror the three specializations of the source. -/
def remove_duplicates_go : ℕ → List α → List α
  | _, [] => []
  | _, [t] => [t]
  | 0, l => l
  | fuel + 1, t :: ts =>
    if contains t ts then
      t :: remove_duplicates_go fuel (remove_all t ts)
    else
      t :: remove_duplicates_go fuel ts

/-- `remove_duplicates<TYPELIST>` of mpml.h (lines 205-217). -/
def remove_duplicates (l : List α) : List α :=
  remove_duplicates_go l.length l

/-- `get_filtered<TYPELIST, TRAIT>` of mpml.h (lines 223-235): keep, in order,
the elements whose trait holds. -/
def get_filtered (trait : α → Bool) : List α → List α
  | [] => []
  | x :: xs =>
    let remaining := get_filtered trait xs
    if trait x then push_front x remaining else remaining

/-- `get_the_best<TYPELIST, CMP>` of mpml.h (lines 243-262) on the non-empty
list `x :: xs` (the source has no empty-list case): the best of a singleton is
its element, and the best of `first :: rest` is `first` when
`CMP(first, best rest)` holds, else `best rest`. -/
def get_the_best (cmp : α → α → Bool) (x : α) : List α → α
  | [] => x
  | y :: ys =>
    let remaining_best := get_the_best cmp y ys
    if cmp x remaining_best then x else remaining_best

/-- Fuel-indexed body of `details::get_ancestors<SRCLIST, DESTLIST>` of mpml.h
(lines 300-327).  Each round selects `most_ancient = get_the_best SRCLIST`,
filters out of `SRCLIST` everything equal to it (`not_most_ancient_t`), and
appends it to `DESTLIST`; the round strictly shrinks `SRCLIST`, so fuel
`SRCLIST.length` always suffices. -/
def details_get_ancestors_go (cmp : α → α → Bool) : ℕ → List α → List α → List α
  | _, [], dest => dest
  | 0, _ :: _, dest => dest
  | fuel + 1, x :: xs, dest =>
    let most_ancient := get_the_best cmp x xs
    details_get_ancestors_go cmp fuel
      (get_filtered (fun t => !(decide (most_ancient = t))) (x :: xs))
      (push_back most_ancient dest)

/-- `details::get_ancestors<SRCLIST, DESTLIST>` of mpml.h (lines 300-327). -/
def details_get_ancestors (cmp : α → α → Bool) (src dest : List α) : List α :=
  details_get_ancestors_go cmp src.length src dest

/-- `get_ancestors<TYPE, TYPELIST>` of mpml.h (lines 287-298): remove the
target from the universe, keep the tokens that are ancestors of the target
(`trait<U> = is_base_of<U, TYPE>` becomes `cmp u t`), and run the
`details::get_ancestors` loop with an empty destination list. -/
def get_ancestors (cmp : α → α → Bool) (t : α) (u : List α) : List α :=
  details_get_ancestors cmp (get_filtered (fun x => cmp x t) (remove_all t u)) []

/-!
## The macro-based registry

`INTERNAL_MPML_DECLARE(_name, _idx)` (mpml.h lines 389-434) declares a sparse
history `_name_mpml_history<IDX>` with the single entry `emptytypelist` at the
declaration point `_idx`, and a reader `_name_mpml_read<IDX>` that returns the
entry at `IDX` when it is defined and otherwise descends to `IDX - 1`,
bottoming out at `emptytypelist` once `IDX` is no longer greater than `_idx`.
`INTERNAL_MPML_ADD(_type, _name, _idx)` (lines 436-443) defines the entry at
`_idx` as `push_back<_type, read<_idx - 1>>`.  The history is embedded as a
sparse map `ℕ → Option (List α)` from `__COUNTER__` points to sequences.
-/

/-- The reader `_name##_mpml_read<IDX>` of `INTERNAL_MPML_DECLARE`:  if the
history has an entry at the point, return it; otherwise, when the point is
still greater than the declaration point `d`, descend one point; otherwise
return the empty list. -/
def resolve (hist : ℕ → Option (List α)) (d : ℕ) : ℕ → List α
  | 0 =>
    match hist 0 with
    | some s => s
    | none => []
  | p + 1 =>
    match hist (p + 1) with
    | some s => s
    | none => if d < p + 1 then resolve hist d p else []

/-- The history right after `INTERNAL_MPML_DECLARE(_name, d)`: a single entry,
the empty typelist at the declaration point `d`. -/
def declareHist (d : ℕ) : ℕ → Option (List α) :=
  fun q => if q = d then some [] else none

/-- One `INTERNAL_MPML_ADD(tok, _name, p)` applied to history `h`: the entry
at point `p` becomes `push_back tok (read (p - 1))`. -/
def addEntry (d : ℕ) (h : ℕ → Option (List α)) (p : ℕ) (tok : α) :
    ℕ → Option (List α) :=
  fun q => if q = p then some (push_back tok (resolve h d (p - 1))) else h q

/-- The history after `MPML_DECLARE` at point `d` followed by the given
`MPML_ADD` events `(point, token)` in program order. -/
def buildHist (d : ℕ) (adds : List (ℕ × α)) : ℕ → Option (List α) :=
  adds.foldl (fun h e => addEntry d h e.1 e.2) (declareHist d)

/-- The add points are the strictly increasing `__COUNTER__` values handed out
after the declaration point: `d < p₁ < p₂ < ...`. -/
def ValidAdds (d : ℕ) (adds : List (ℕ × α)) : Prop :=
  List.Chain' (· < ·) (d :: adds.map Prod.fst)

/-- Shape invariant of a registry history declared at `d` whose defined points
all lie in `{d} ∪ (d, bound]`: the declaration entry is the empty sequence and
every other entry extends, by one `push_back`, the sequence resolved at the
preceding point. -/
structure GoodHist (h : ℕ → Option (List α)) (d bound : ℕ) : Prop where
  le : d ≤ bound
  at_decl : h d = some []
  dom : ∀ q, q ≠ d → h q ≠ none → d < q ∧ q ≤ bound
  entry : ∀ q s, h q = some s → (q = d ∧ s = []) ∨
    (d < q ∧ ∃ tok, s = push_back tok (resolve h d (q - 1)))

/-!
## Spec-side definitions

These follow the words of the specification (or of an amended claim) rather
than the source; each is compared with the corresponding source-derived
definition.
-/

/-- Spec-side dedup from the words of `spec.md` §4.1: scanning left to right,
an element is dropped when it reoccurs later in the sequence, so for each
repeated token only its last occurrence is retained. -/
def dedupLast : List α → List α
  | [] => []
  | x :: xs => if x ∈ xs then dedupLast xs else x :: dedupLast xs

/-- Helper for `dedupFirst`: an occurrence is kept iff its token has not been
seen at an earlier position. -/
def dedupFirstAux (seen : List α) : List α → List α
  | [] => []
  | x :: xs =>
    if x ∈ seen then dedupFirstAux seen xs
    else x :: dedupFirstAux (x :: seen) xs

/-- Dedup from the words of the amended claim C4: for each token keep only its
first occurrence, in the left-to-right order of first occurrences. -/
def dedupFirst (l : List α) : List α :=
  dedupFirstAux [] l

/-- `precedes X Y l`: some occurrence of `X` appears strictly before an
occurrence of `Y` in `l` (scan to the first `X`, then look for `Y` after
it).  On duplicate-free chains this is exactly index-of-`X` < index-of-`Y`. -/
def precedes (X Y : α) : List α → Bool
  | [] => false
  | z :: zs => if z = X then decide (Y ∈ zs) else precedes X Y zs

/-!
## The embedded unit-test hierarchy

mpml.h (lines 447-609, under `MPML_UNIT_TEST`) declares the two diamond
hierarchies

```
     A                F
    / \              / \
   B   C            H   \
  /   / \          / \   \
 T   D   E        I   J   G
                   \ /   / \
                    K   L   Z
                    |
                    W
```

and registers eighteen tokens into the registry `MPML_TEST_TL`.  The classes
are embedded as distinct naturals and `std::is_base_of` as the reflexive
relation `isBase` generated by the declared inheritance edges.
-/

namespace unit_testing

def A : ℕ := 0
def B : ℕ := 1
def C : ℕ := 2
def T : ℕ := 3
def D : ℕ := 4
def E : ℕ := 5
def F : ℕ := 6
def G : ℕ := 7
def H : ℕ := 8
def I : ℕ := 9
def J : ℕ := 10
def K : ℕ := 11
def L : ℕ := 12
def Z : ℕ := 13
def W : ℕ := 14

/-- The strict (proper) base classes of each class, read off the `class ... :
public ...` declarations of mpml.h lines 467-481. -/
def properBases : ℕ → List ℕ
  | 1 => [0]
  | 2 => [0]
  | 3 => [1, 0]
  | 4 => [2, 0]
  | 5 => [2, 0]
  | 7 => [6]
  | 8 => [6]
  | 9 => [8, 6]
  | 10 => [8, 6]
  | 11 => [9, 10, 8, 6]
  | 12 => [7, 6]
  | 13 => [7, 6]
  | 14 => [11, 9, 10, 8, 6]
  | _ => []

/-- `std::is_base_of<X, Y>` on the embedded hierarchy: reflexive, plus the
transitively closed inheritance edges. -/
def isBase (x y : ℕ) : Bool :=
  decide (x = y) || decide (x ∈ properBases y)

/-- The eighteen `MPML_ADD` events of mpml.h lines 549-566, at the
`__COUNTER__` points 1..18 following the `MPML_DECLARE` at point 0. -/
def test_adds : List (ℕ × ℕ) :=
  [(1, C), (2, D), (3, Z), (4, H), (5, I), (6, I), (7, E), (8, T), (9, L),
   (10, B), (11, A), (12, J), (13, A), (14, G), (15, K), (16, A), (17, F),
   (18, W)]

/-- `MPML_TYPES(MPML_TEST_TL)` as read at mpml.h line 572: the registry
resolved at the last add point. -/
def test_universe : List ℕ :=
  resolve (buildHist 0 test_adds) 0 18

/-- The registration order of the concrete scenario of `spec.md` §8
(`C, D, E, T, B, A, A, A, F, G, L, Z, H, I, J, K, W`). -/
def spec_universe : List ℕ :=
  [C, D, E, T, B, A, A, A, F, G, L, Z, H, I, J, K, W]

end unit_testing

/-!
## Basic lemmas about the sequence engine
-/

theorem remove_all_length_le (t : α) (l : List α) :
    (remove_all t l).length ≤ l.length := by
  induction l with
  | nil => simp [remove_all]
  | cons u us ih =>
    simp only [remove_all]
    by_cases h : t = u
    · simp only [if_pos h, List.length_cons]
      omega
    · simp only [if_neg h, List.length_cons]
      omega

theorem mem_remove_all {x t : α} {l : List α} :
    x ∈ remove_all t l ↔ x ∈ l ∧ x ≠ t := by
  induction l with
  | nil => simp [remove_all]
  | cons u us ih =>
    simp only [remove_all]
    by_cases h : t = u
    · subst h
      rw [if_pos rfl, ih]
      constructor
      · rintro ⟨hm, hne⟩
        exact ⟨List.mem_cons_of_mem _ hm, hne⟩
      · rintro ⟨hm, hne⟩
        rcases List.mem_cons.mp hm with h1 | h1
        · exact absurd h1 hne
        · exact ⟨h1, hne⟩
    · rw [if_neg h]
      constructor
      · intro hm
        rcases List.mem_cons.mp hm with h1 | h1
        · subst h1
          exact ⟨List.mem_cons_self x us, fun hxt => h hxt.symm⟩
        · rcases ih.mp h1 with ⟨hm2, hne⟩
          exact ⟨List.mem_cons_of_mem _ hm2, hne⟩
      · rintro ⟨hm, hne⟩
        rcases List.mem_cons.mp hm with h1 | h1
        · subst h1
          exact List.mem_cons_self x _
        · exact List.mem_cons_of_mem _ (ih.mpr ⟨h1, hne⟩)

theorem remove_all_of_not_mem {t : α} {l : List α} (h : t ∉ l) :
    remove_all t l = l := by
  induction l with
  | nil => rfl
  | cons u us ih =>
    have hne : t ≠ u := fun he => h (he ▸ List.mem_cons_self u us)
    have hnm : t ∉ us := fun hm => h (List.mem_cons_of_mem u hm)
    simp only [remove_all, if_neg hne, ih hnm]

theorem find_of_not_mem {t : α} {l : List α} (h : t ∉ l) (N : ℤ) :
    find t l N = (l.length : ℤ) - (N + 1) := by
  induction l with
  | nil => simp [find]
  | cons x xs ih =>
    have hne : x ≠ t := fun he => h (he ▸ List.mem_cons_self x xs)
    have hnm : t ∉ xs := fun hm => h (List.mem_cons_of_mem x hm)
    simp only [find, if_neg hne, ih hnm, List.length_cons]
    push_cast
    ring

theorem find_nonneg_of_mem {t : α} {l : List α} (h : t ∈ l) (N : ℤ) :
    0 ≤ find t l N := by
  induction l with
  | nil => cases h
  | cons x xs ih =>
    simp only [find]
    by_cases he : x = t
    · simp [he]
    · rcases List.mem_cons.mp h with h1 | h1
      · exact absurd h1.symm he
      · rw [if_neg he]
        have := ih h1
        omega

theorem find_v_of_not_mem {t : α} {l : List α} (h : t ∉ l) :
    find_v t l = -1 := by
  rw [find_v, find_of_not_mem h]
  ring

theorem contains_iff_mem {t : α} {l : List α} :
    contains t l = true ↔ t ∈ l := by
  constructor
  · intro hc
    by_contra hm
    rw [contains, decide_eq_true_iff] at hc
    exact hc (find_v_of_not_mem hm)
  · intro hm
    rw [contains, decide_eq_true_iff]
    intro he
    have := find_nonneg_of_mem hm (l.length : ℤ)
    rw [find_v] at he
    omega

theorem get_filtered_eq_filter (p : α → Bool) (l : List α) :
    get_filtered p l = l.filter p := by
  induction l with
  | nil => rfl
  | cons x xs ih =>
    simp only [get_filtered, List.filter, push_front]
    by_cases h : p x = true
    · simp [h, ih]
    · simp only [Bool.not_eq_true] at h
      simp [h, ih]

theorem get_filtered_length_le (p : α → Bool) (l : List α) :
    (get_filtered p l).length ≤ l.length := by
  rw [get_filtered_eq_filter]
  exact l.length_filter_le p

theorem get_filtered_length_lt {p : α → Bool} {l : List α} {m : α}
    (hm : m ∈ l) (hp : p m = false) :
    (get_filtered p l).length < l.length := by
  induction l with
  | nil => cases hm
  | cons x xs ih =>
    simp only [get_filtered, push_front]
    rcases List.mem_cons.mp hm with h | h
    · subst h
      simp only [hp, if_neg Bool.false_ne_true, List.length_cons]
      exact Nat.lt_succ_of_le (get_filtered_length_le p xs)
    · by_cases hx : p x = true
      · simp only [hx, if_pos rfl, List.length_cons]
        exact Nat.succ_lt_succ (ih h)
      · simp only [Bool.not_eq_true] at hx
        simp only [hx, if_neg Bool.false_ne_true, List.length_cons]
        exact Nat.lt_succ_of_lt (ih h)

theorem mem_get_filtered {p : α → Bool} {l : List α} {z : α} :
    z ∈ get_filtered p l ↔ z ∈ l ∧ p z = true := by
  rw [get_filtered_eq_filter]
  exact List.mem_filter

theorem get_the_best_mem (cmp : α → α → Bool) (x : α) (xs : List α) :
    get_the_best cmp x xs ∈ x :: xs := by
  induction xs generalizing x with
  | nil => simp [get_the_best]
  | cons y ys ih =>
    simp only [get_the_best]
    by_cases h : cmp x (get_the_best cmp y ys) = true
    · simp [h]
    · simp only [Bool.not_eq_true] at h
      simp only [h, if_neg Bool.false_ne_true]
      exact List.mem_cons_of_mem x (ih y)

/-!
## Fuel irrelevance

The fuel arguments of `remove_duplicates_go` and `details_get_ancestors_go`
are irrelevant as soon as they dominate the length of the list argument, so
the fuel-free recurrences of the source hold of `remove_duplicates` and
`details_get_ancestors`.
-/

theorem remove_duplicates_go_congr :
    ∀ (f1 f2 : ℕ) (l : List α), l.length ≤ f1 → l.length ≤ f2 →
      remove_duplicates_go f1 l = remove_duplicates_go f2 l := by
  intro f1
  induction f1 with
  | zero =>
    intro f2 l h1 _
    rw [List.length_eq_zero.mp (Nat.le_zero.mp h1)]
    simp [remove_duplicates_go]
  | succ f ih =>
    intro f2 l h1 h2
    match l with
    | [] => simp [remove_duplicates_go]
    | [t] =>
      cases f2 with
      | zero => simp at h2
      | succ g => simp [remove_duplicates_go]
    | t :: u :: us =>
      cases f2 with
      | zero => simp at h2
      | succ g =>
        simp only [List.length_cons] at h1 h2
        have hrem : (remove_all t (u :: us)).length ≤ us.length + 1 :=
          remove_all_length_le t (u :: us)
        simp only [remove_duplicates_go]
        by_cases hc : contains t (u :: us) = true
        · rw [if_pos hc, if_pos hc,
            ih g (remove_all t (u :: us)) (by omega) (by omega)]
        · rw [if_neg hc, if_neg hc,
            ih g (u :: us) (by simp only [List.length_cons]; omega)
              (by simp only [List.length_cons]; omega)]

theorem remove_duplicates_cons (t : α) (ts : List α) :
    remove_duplicates (t :: ts) =
      if contains t ts then t :: remove_duplicates (remove_all t ts)
      else t :: remove_duplicates ts := by
  match ts with
  | [] =>
    have : contains t ([] : List α) = false := by
      simp [contains, find_v, find]
    simp [remove_duplicates, remove_duplicates_go, this]
  | u :: us =>
    have hrem : (remove_all t (u :: us)).length ≤ us.length + 1 :=
      remove_all_length_le t (u :: us)
    show remove_duplicates_go (us.length + 2) (t :: u :: us) = _
    simp only [remove_duplicates_go]
    by_cases hc : contains t (u :: us) = true
    · simp only [hc, if_pos rfl]
      rw [remove_duplicates_go_congr (us.length + 1)
        (remove_all t (u :: us)).length (remove_all t (u :: us)) (by omega)
        (le_refl _)]
      rfl
    · simp only [Bool.not_eq_true] at hc
      simp only [hc, if_neg Bool.false_ne_true]
      rfl

theorem details_get_ancestors_go_congr (cmp : α → α → Bool) :
    ∀ (f1 f2 : ℕ) (src dest : List α), src.length ≤ f1 → src.length ≤ f2 →
      details_get_ancestors_go cmp f1 src dest =
        details_get_ancestors_go cmp f2 src dest := by
  intro f1
  induction f1 with
  | zero =>
    intro f2 src dest h1 _
    rw [List.length_eq_zero.mp (Nat.le_zero.mp h1)]
    simp [details_get_ancestors_go]
  | succ f ih =>
    intro f2 src dest h1 h2
    match src with
    | [] => simp [details_get_ancestors_go]
    | x :: xs =>
      cases f2 with
      | zero => simp at h2
      | succ g =>
        simp only [List.length_cons] at h1 h2
        simp only [details_get_ancestors_go]
        have hlt :
            (get_filtered
              (fun s => !(decide (get_the_best cmp x xs = s))) (x :: xs)).length
              < (x :: xs).length :=
          get_filtered_length_lt (get_the_best_mem cmp x xs) (by simp)
        simp only [List.length_cons] at hlt
        exact ih g _ _ (by omega) (by omega)

theorem details_get_ancestors_cons (cmp : α → α → Bool) (x : α)
    (xs dest : List α) :
    details_get_ancestors cmp (x :: xs) dest =
      details_get_ancestors cmp
        (get_filtered (fun s => !(decide (get_the_best cmp x xs = s))) (x :: xs))
        (push_back (get_the_best cmp x xs) dest) := by
  show details_get_ancestors_go cmp (xs.length + 1) (x :: xs) dest = _
  simp only [details_get_ancestors_go]
  have hlt :
      (get_filtered
        (fun s => !(decide (get_the_best cmp x xs = s))) (x :: xs)).length
        < (x :: xs).length :=
    get_filtered_length_lt (get_the_best_mem cmp x xs) (by simp)
  simp only [List.length_cons] at hlt
  exact details_get_ancestors_go_congr cmp xs.length _ _ _ (by omega) (le_refl _)

/-!
## `remove_duplicates` keeps first occurrences
-/

theorem dedupFirstAux_congr :
    ∀ (l s1 s2 : List α), (∀ a, a ∈ s1 ↔ a ∈ s2) →
      dedupFirstAux s1 l = dedupFirstAux s2 l := by
  intro l
  induction l with
  | nil => intro s1 s2 _; rfl
  | cons x xs ih =>
    intro s1 s2 hs
    simp only [dedupFirstAux]
    by_cases h : x ∈ s1
    · rw [if_pos h, if_pos ((hs x).mp h), ih s1 s2 hs]
    · rw [if_neg h, if_neg (fun h2 => h ((hs x).mpr h2))]
      rw [ih (x :: s1) (x :: s2) (fun a => by simp [List.mem_cons, hs a])]

theorem dedupFirstAux_seen_remove_all (x : α) :
    ∀ (l seen : List α),
      dedupFirstAux (x :: seen) l = dedupFirstAux seen (remove_all x l) := by
  intro l
  induction l with
  | nil => intro seen; rfl
  | cons y ys ih =>
    intro seen
    by_cases hxy : x = y
    · subst hxy
      simp only [dedupFirstAux, remove_all, if_pos rfl,
        if_pos (List.mem_cons_self x seen)]
      exact ih seen
    · simp only [dedupFirstAux, remove_all, if_neg hxy]
      by_cases hy : y ∈ seen
      · rw [if_pos (List.mem_cons_of_mem x hy)]
        simp only [dedupFirstAux, if_pos hy]
        exact ih seen
      · have hy2 : y ∉ x :: seen := by
          intro hc
          rcases List.mem_cons.mp hc with h1 | h1
          · exact hxy h1.symm
          · exact hy h1
        rw [if_neg hy2]
        simp only [dedupFirstAux, if_neg hy]
        rw [← ih (y :: seen)]
        rw [dedupFirstAux_congr ys (y :: x :: seen) (x :: y :: seen)
          (fun a => by simp [List.mem_cons]; tauto)]

theorem remove_duplicates_eq_dedupFirst_aux :
    ∀ (n : ℕ) (l : List α), l.length ≤ n → remove_duplicates l = dedupFirst l := by
  intro n
  induction n with
  | zero =>
    intro l hl
    rw [List.length_eq_zero.mp (Nat.le_zero.mp hl)]
    rfl
  | succ m ih =>
    intro l hl
    match l with
    | [] => rfl
    | t :: ts =>
      simp only [List.length_cons] at hl
      rw [remove_duplicates_cons]
      by_cases hc : contains t ts = true
      · rw [if_pos hc,
          ih (remove_all t ts) (le_trans (remove_all_length_le t ts) (by omega))]
        show _ = dedupFirstAux [] (t :: ts)
        simp only [dedupFirstAux, if_neg (List.not_mem_nil t)]
        rw [dedupFirstAux_seen_remove_all]
        rfl
      · rw [if_neg hc, ih ts (by omega)]
        have hm : t ∉ ts := fun h => hc (contains_iff_mem.mpr h)
        show _ = dedupFirstAux [] (t :: ts)
        simp only [dedupFirstAux, if_neg (List.not_mem_nil t)]
        rw [dedupFirstAux_seen_remove_all, remove_all_of_not_mem hm]
        rfl

theorem mem_dedupFirstAux {x : α} :
    ∀ (l seen : List α), x ∈ dedupFirstAux seen l → x ∈ l ∧ x ∉ seen := by
  intro l
  induction l with
  | nil => intro seen h; cases h
  | cons y ys ih =>
    intro seen h
    simp only [dedupFirstAux] at h
    by_cases hy : y ∈ seen
    · rw [if_pos hy] at h
      rcases ih seen h with ⟨h1, h2⟩
      exact ⟨List.mem_cons_of_mem y h1, h2⟩
    · rw [if_neg hy] at h
      rcases List.mem_cons.mp h with h1 | h1
      · subst h1
        exact ⟨List.mem_cons_self x ys, hy⟩
      · rcases ih (y :: seen) h1 with ⟨h2, h3⟩
        exact ⟨List.mem_cons_of_mem y h2,
          fun hc => h3 (List.mem_cons_of_mem y hc)⟩

theorem nodup_dedupFirstAux :
    ∀ (l seen : List α), (dedupFirstAux seen l).Nodup := by
  intro l
  induction l with
  | nil => intro seen; exact List.nodup_nil
  | cons y ys ih =>
    intro seen
    simp only [dedupFirstAux]
    by_cases hy : y ∈ seen
    · rw [if_pos hy]
      exact ih seen
    · rw [if_neg hy]
      refine List.nodup_cons.mpr ⟨?_, ih (y :: seen)⟩
      intro hc
      exact (mem_dedupFirstAux ys (y :: seen) hc).2 (List.mem_cons_self y seen)

theorem remove_duplicates_nodup (l : List α) : (remove_duplicates l).Nodup := by
  rw [remove_duplicates_eq_dedupFirst_aux l.length l (le_refl _)]
  exact nodup_dedupFirstAux l []

theorem remove_duplicates_of_nodup : ∀ {l : List α}, l.Nodup →
    remove_duplicates l = l := by
  intro l
  induction l with
  | nil => intro _; rfl
  | cons t ts ih =>
    intro hn
    rcases List.nodup_cons.mp hn with ⟨hm, hts⟩
    have hc : ¬contains t ts = true := fun h => hm (contains_iff_mem.mp h)
    rw [remove_duplicates_cons, if_neg hc, ih hts]

/-!
## Registry lemmas
-/

theorem resolve_congr (h1 h2 : ℕ → Option (List α)) (d : ℕ) :
    ∀ p, (∀ r, r ≤ p → h1 r = h2 r) → resolve h1 d p = resolve h2 d p := by
  intro p
  induction p with
  | zero =>
    intro hagree
    simp only [resolve]
    rw [hagree 0 (le_refl _)]
  | succ q ih =>
    intro hagree
    simp only [resolve]
    rw [hagree (q + 1) (le_refl _)]
    cases hq : h2 (q + 1) with
    | some s => rfl
    | none =>
      by_cases hlt : d < q + 1
      · simp only [if_pos hlt]
        exact ih (fun r hr => hagree r (le_trans hr (Nat.le_succ q)))
      · simp only [if_neg hlt]

theorem resolve_of_entry (h : ℕ → Option (List α)) (d : ℕ) :
    ∀ p s, h p = some s → resolve h d p = s := by
  intro p s hp
  cases p with
  | zero => simp only [resolve, hp]
  | succ q => simp only [resolve, hp]

theorem good_declare (d : ℕ) : GoodHist (@declareHist α d) d d := by
  refine ⟨le_refl d, by simp [declareHist], ?_, ?_⟩
  · intro q hq hne
    exact absurd (by simp [declareHist, hq]) hne
  · intro q s hs
    by_cases hq : q = d
    · subst hq
      have h0 : @declareHist α q q = some [] := by
        simp [declareHist]
      rw [h0, Option.some_inj] at hs
      exact Or.inl ⟨rfl, hs.symm⟩
    · simp [declareHist, hq] at hs

theorem good_add {h : ℕ → Option (List α)} {d bound p : ℕ} {tok : α}
    (hG : GoodHist h d bound) (hp : bound < p) :
    GoodHist (addEntry d h p tok) d p := by
  have hagree : ∀ r, r ≤ p - 1 → addEntry d h p tok r = h r := by
    intro r hr
    have hne : r ≠ p := by omega
    simp only [addEntry, if_neg hne]
  have hdp : d < p := lt_of_le_of_lt hG.le hp
  refine ⟨le_of_lt hdp, ?_, ?_, ?_⟩
  · have hne : d ≠ p := by omega
    simp only [addEntry, if_neg hne, hG.at_decl]
  · intro q hq hne
    by_cases hqp : q = p
    · exact ⟨hqp ▸ hdp, hqp ▸ le_refl p⟩
    · simp only [addEntry, if_neg hqp] at hne
      rcases hG.dom q hq hne with ⟨h1, h2⟩
      exact ⟨h1, le_trans h2 (le_of_lt hp)⟩
  · intro q s hs
    by_cases hqp : q = p
    · subst hqp
      have h0 : addEntry d h q tok q =
          some (push_back tok (resolve h d (q - 1))) := by
        simp [addEntry]
      rw [h0, Option.some_inj] at hs
      refine Or.inr ⟨hdp, tok, ?_⟩
      rw [← hs, resolve_congr (addEntry d h q tok) h d (q - 1) hagree]
    · simp only [addEntry, if_neg hqp] at hs
      rcases hG.entry q s hs with ⟨h1, h2⟩ | ⟨h1, tok2, h2⟩
      · exact Or.inl ⟨h1, h2⟩
      · have hqb : q ≤ bound :=
          (hG.dom q (by omega) (by rw [hs]; exact Option.some_ne_none s)).2
        refine Or.inr ⟨h1, tok2, ?_⟩
        rw [h2, resolve_congr (addEntry d h p tok) h d (q - 1)
          (fun r hr => hagree r (by omega))]

theorem good_build_aux (d : ℕ) :
    ∀ (adds : List (ℕ × α)) (h : ℕ → Option (List α)) (bound : ℕ),
      GoodHist h d bound → List.Chain' (· < ·) (bound :: adds.map Prod.fst) →
      ∃ b, GoodHist (adds.foldl (fun h e => addEntry d h e.1 e.2) h) d b := by
  intro adds
  induction adds with
  | nil =>
    intro h bound hG _
    exact ⟨bound, hG⟩
  | cons e rest ih =>
    intro h bound hG hchain
    simp only [List.map_cons, List.chain'_cons] at hchain
    exact ih (addEntry d h e.1 e.2) e.1 (good_add hG hchain.1) hchain.2

theorem good_buildHist {d : ℕ} {adds : List (ℕ × α)} (hv : ValidAdds d adds) :
    ∃ b, GoodHist (buildHist d adds) d b :=
  good_build_aux d adds (declareHist d) d (good_declare d) hv

theorem resolve_le_decl {h : ℕ → Option (List α)} {d bound : ℕ}
    (hG : GoodHist h d bound) : ∀ p, p ≤ d → resolve h d p = [] := by
  intro p hp
  by_cases he : p = d
  · subst he
    exact resolve_of_entry _ _ _ _ hG.at_decl
  · have hnone : h p = none := by
      by_contra hne
      exact absurd (hG.dom p he hne).1 (by omega)
    cases p with
    | zero => simp only [resolve, hnone]
    | succ q =>
      have hlt : ¬d < q + 1 := by omega
      simp only [resolve, hnone, if_neg hlt]

theorem resolve_step {h : ℕ → Option (List α)} {d bound : ℕ}
    (hG : GoodHist h d bound) (q : ℕ) :
    resolve h d q <+: resolve h d (q + 1) := by
  cases hsome : h (q + 1) with
  | some s =>
    rw [resolve_of_entry h d (q + 1) s hsome]
    rcases hG.entry (q + 1) s hsome with ⟨h1, h2⟩ | ⟨_, tok, h2⟩
    · rw [resolve_le_decl hG q (by omega), h2]
    · rw [h2]
      simp only [Nat.add_sub_cancel, push_back]
      exact ⟨[tok], rfl⟩
  | none =>
    show resolve h d q <+: resolve h d (q + 1)
    by_cases hlt : d < q + 1
    · simp only [resolve, hsome, if_pos hlt]
      cases hr : resolve h d q
      · exact List.nil_prefix
      · exact List.prefix_refl _
    · rw [resolve_le_decl hG q (by omega)]
      exact List.nil_prefix

theorem resolve_mono {h : ℕ → Option (List α)} {d bound : ℕ}
    (hG : GoodHist h d bound) {p1 p2 : ℕ} (h12 : p1 ≤ p2) :
    resolve h d p1 <+: resolve h d p2 := by
  induction h12 with
  | refl => exact List.prefix_refl _
  | step _ ih => exact ih.trans (resolve_step hG _)

/-!
## The `details::get_ancestors` loop
-/

theorem mem_filter_ne {m : α} {l : List α} {z : α} :
    z ∈ get_filtered (fun s => !(decide (m = s))) l ↔ z ∈ l ∧ z ≠ m := by
  rw [mem_get_filtered]
  constructor
  · rintro ⟨h1, h2⟩
    simp only [Bool.not_eq_true', decide_eq_false_iff_not] at h2
    exact ⟨h1, fun he => h2 he.symm⟩
  · rintro ⟨h1, h2⟩
    refine ⟨h1, ?_⟩
    simp only [Bool.not_eq_true', decide_eq_false_iff_not]
    exact fun he => h2 he.symm

theorem details_append_aux (cmp : α → α → Bool) :
    ∀ (n : ℕ) (src dest : List α), src.length ≤ n →
      details_get_ancestors cmp src dest =
        dest ++ details_get_ancestors cmp src [] := by
  intro n
  induction n with
  | zero =>
    intro src dest h
    rw [List.length_eq_zero.mp (Nat.le_zero.mp h)]
    simp [details_get_ancestors, details_get_ancestors_go]
  | succ m ih =>
    intro src dest h
    match src with
    | [] => simp [details_get_ancestors, details_get_ancestors_go]
    | x :: xs =>
      have hlt :
          (get_filtered
            (fun s => !(decide (get_the_best cmp x xs = s))) (x :: xs)).length
            < (x :: xs).length :=
        get_filtered_length_lt (get_the_best_mem cmp x xs) (by simp)
      simp only [List.length_cons] at h hlt
      rw [details_get_ancestors_cons, ih _ _ (by omega),
        details_get_ancestors_cons cmp x xs [],
        ih (get_filtered (fun s => !(decide (get_the_best cmp x xs = s))) (x :: xs))
          (push_back (get_the_best cmp x xs) []) (by omega)]
      simp [push_back, List.append_assoc]

theorem details_mem_cases (cmp : α → α → Bool) :
    ∀ (n : ℕ) (src dest : List α) (z : α), src.length ≤ n →
      z ∈ details_get_ancestors cmp src dest → z ∈ src ∨ z ∈ dest := by
  intro n
  induction n with
  | zero =>
    intro src dest z h hz
    rw [List.length_eq_zero.mp (Nat.le_zero.mp h)] at hz ⊢
    exact Or.inr hz
  | succ m ih =>
    intro src dest z h hz
    match src with
    | [] => exact Or.inr hz
    | x :: xs =>
      have hlt :
          (get_filtered
            (fun s => !(decide (get_the_best cmp x xs = s))) (x :: xs)).length
            < (x :: xs).length :=
        get_filtered_length_lt (get_the_best_mem cmp x xs) (by simp)
      simp only [List.length_cons] at h hlt
      rw [details_get_ancestors_cons] at hz
      rcases ih _ _ z (by omega) hz with h1 | h1
      · exact Or.inl (mem_filter_ne.mp h1).1
      · rcases List.mem_append.mp h1 with h2 | h2
        · exact Or.inr h2
        · rw [List.mem_singleton.mp h2]
          exact Or.inl (get_the_best_mem cmp x xs)

theorem details_complete (cmp : α → α → Bool) :
    ∀ (n : ℕ) (src dest : List α) (z : α), src.length ≤ n →
      z ∈ src → z ∈ details_get_ancestors cmp src dest := by
  intro n
  induction n with
  | zero =>
    intro src dest z h hz
    rw [List.length_eq_zero.mp (Nat.le_zero.mp h)] at hz
    cases hz
  | succ m ih =>
    intro src dest z h hz
    match src with
    | [] => cases hz
    | x :: xs =>
      have hlt :
          (get_filtered
            (fun s => !(decide (get_the_best cmp x xs = s))) (x :: xs)).length
            < (x :: xs).length :=
        get_filtered_length_lt (get_the_best_mem cmp x xs) (by simp)
      simp only [List.length_cons] at h hlt
      rw [details_get_ancestors_cons]
      by_cases he : z = get_the_best cmp x xs
      · rw [details_append_aux cmp m _ _ (by omega)]
        refine List.mem_append.mpr (Or.inl ?_)
        rw [he]
        simp [push_back]
      · exact ih _ _ z (by omega) (mem_filter_ne.mpr ⟨hz, he⟩)

theorem details_nodup (cmp : α → α → Bool) :
    ∀ (n : ℕ) (src dest : List α), src.length ≤ n → dest.Nodup →
      (∀ z ∈ src, z ∉ dest) → (details_get_ancestors cmp src dest).Nodup := by
  intro n
  induction n with
  | zero =>
    intro src dest h hd _
    rw [List.length_eq_zero.mp (Nat.le_zero.mp h)]
    exact hd
  | succ m ih =>
    intro src dest h hd hdisj
    match src with
    | [] => exact hd
    | x :: xs =>
      have hbest := get_the_best_mem cmp x xs
      have hlt :
          (get_filtered
            (fun s => !(decide (get_the_best cmp x xs = s))) (x :: xs)).length
            < (x :: xs).length :=
        get_filtered_length_lt hbest (by simp)
      simp only [List.length_cons] at h hlt
      rw [details_get_ancestors_cons]
      refine ih _ _ (by omega) ?_ ?_
      · refine List.Nodup.append hd (List.nodup_singleton _) ?_
        intro a ha hb
        rw [List.mem_singleton.mp hb] at ha
        exact hdisj _ hbest ha
      · intro z hz hc
        rcases mem_filter_ne.mp hz with ⟨h1, h2⟩
        rcases List.mem_append.mp hc with h3 | h3
        · exact hdisj z h1 h3
        · exact h2 (List.mem_singleton.mp h3)

/-!
## The tie-break order of the linearizer

`get_the_best` folds from the right: the running best starts at the last
element and an element replaces it only by strictly beating it under `cmp`.
A candidate incomparable with everything is therefore selected exactly when it
is the last element of the current source list, so among candidates that are
incomparable with every element of the candidate set, the one whose *last*
occurrence comes later is extracted — and hence emitted — *earlier*.
-/

theorem precedes_eq_false_of_not_mem (X Y : α) :
    ∀ l : List α, Y ∉ l → precedes X Y l = false := by
  intro l
  induction l with
  | nil => intro _; rfl
  | cons z zs ih =>
    intro h
    have hzs : Y ∉ zs := fun hc => h (List.mem_cons_of_mem z hc)
    simp only [precedes]
    by_cases hz : z = X
    · rw [if_pos hz]
      simpa using hzs
    · rw [if_neg hz]
      exact ih hzs

theorem get_the_best_isolated (cmp : α → α → Bool) (X : α) :
    ∀ (xs : List α) (x : α),
      (∀ z ∈ x :: xs, cmp X z = false ∧ cmp z X = false) →
      (get_the_best cmp x xs = X ↔ (x :: xs).getLast? = some X) := by
  intro xs
  induction xs with
  | nil =>
    intro x _
    simp [get_the_best, List.getLast?_singleton]
  | cons y ys ih =>
    intro x hiso
    have hiso2 : ∀ z ∈ y :: ys, cmp X z = false ∧ cmp z X = false :=
      fun z hz => hiso z (List.mem_cons_of_mem x hz)
    have hbmem : get_the_best cmp y ys ∈ y :: ys := get_the_best_mem cmp y ys
    rw [List.getLast?_cons_cons]
    simp only [get_the_best]
    by_cases hc : cmp x (get_the_best cmp y ys) = true
    · rw [if_pos hc]
      constructor
      · intro hx
        have h1 : cmp X (get_the_best cmp y ys) = false :=
          (hiso _ (List.mem_cons_of_mem x hbmem)).1
        rw [hx, h1] at hc
        cases hc
      · intro hl
        have h2 : get_the_best cmp y ys = X := (ih y hiso2).mpr hl
        have h3 : cmp x X = false := (hiso x (List.mem_cons_self x _)).2
        rw [h2, h3] at hc
        cases hc
    · rw [if_neg hc]
      exact ih y hiso2

theorem reverse_cons_of_getLast {l : List α} {X : α} (h : l.getLast? = some X) :
    ∃ t, l.reverse = X :: t := by
  have h2 : l.reverse.head? = some X := by rw [List.head?_reverse, h]
  cases hrev : l.reverse with
  | nil => rw [hrev] at h2; cases h2
  | cons a t =>
    rw [hrev] at h2
    simp only [List.head?_cons, Option.some_inj] at h2
    exact ⟨t, by rw [h2]⟩

theorem takeWhile_filter_comm (p q : α → Bool)
    (hpq : ∀ z, q z = false → p z = true) :
    ∀ l : List α, (l.filter p).takeWhile q = (l.takeWhile q).filter p := by
  intro l
  induction l with
  | nil => rfl
  | cons z zs ih =>
    by_cases hqz : q z = true
    · by_cases hpz : p z = true
      · rw [List.filter_cons_of_pos hpz, List.takeWhile_cons, if_pos hqz,
          List.takeWhile_cons, if_pos hqz, List.filter_cons_of_pos hpz, ih]
      · rw [List.filter_cons_of_neg hpz, List.takeWhile_cons, if_pos hqz,
          List.filter_cons_of_neg hpz, ih]
    · have hq0 : q z = false := by
        simpa using hqz
      rw [List.filter_cons_of_pos (hpq z hq0), List.takeWhile_cons, if_neg hqz,
        List.takeWhile_cons, if_neg hqz]
      rfl

theorem c3_main_aux (cmp : α → α → Bool) :
    ∀ (n : ℕ) (S : List α) (X Y : α), S.length ≤ n → X ≠ Y → X ∈ S → Y ∈ S →
      (∀ z ∈ S, cmp X z = false ∧ cmp z X = false) →
      (∀ z ∈ S, cmp Y z = false ∧ cmp z Y = false) →
      (precedes X Y (details_get_ancestors cmp S []) = true ↔
        X ∈ S.reverse.takeWhile (fun z => !(decide (z = Y)))) := by
  intro n
  induction n with
  | zero =>
    intro S X Y hlen _ hX _ _ _
    rw [List.length_eq_zero.mp (Nat.le_zero.mp hlen)] at hX
    cases hX
  | succ m ih =>
    intro S X Y hlen hXY hX hY hisoX hisoY
    match S with
    | [] => cases hX
    | x :: xs =>
      have hbmem : get_the_best cmp x xs ∈ x :: xs := get_the_best_mem cmp x xs
      have hlt :
          (get_filtered
            (fun s => !(decide (get_the_best cmp x xs = s))) (x :: xs)).length
            < (x :: xs).length :=
        get_filtered_length_lt hbmem (by simp)
      simp only [List.length_cons] at hlen hlt
      rw [details_get_ancestors_cons, details_append_aux cmp m _ _ (by omega)]
      simp only [push_back, List.nil_append, List.cons_append]
      by_cases hmX : get_the_best cmp x xs = X
      · have hYsrc : Y ∈ get_filtered
            (fun s => !(decide (get_the_best cmp x xs = s))) (x :: xs) :=
          mem_filter_ne.mpr ⟨hY, fun he => hXY (he.trans hmX).symm⟩
        have hYrest : Y ∈ details_get_ancestors cmp
            (get_filtered
              (fun s => !(decide (get_the_best cmp x xs = s))) (x :: xs)) [] :=
          details_complete cmp m _ [] Y (by omega) hYsrc
        have hlast : (x :: xs).getLast? = some X :=
          (get_the_best_isolated cmp X xs x hisoX).mp hmX
        obtain ⟨tail, htail⟩ := reverse_cons_of_getLast hlast
        have hRHS : X ∈ (x :: xs).reverse.takeWhile
            (fun z => !(decide (z = Y))) := by
          rw [htail, List.takeWhile_cons]
          have hcond : (!(decide (X = Y))) = true := by
            simp [hXY]
          rw [if_pos hcond]
          exact List.mem_cons_self X _
        simp only [precedes, if_pos hmX]
        rw [decide_eq_true_eq]
        exact iff_of_true hYrest hRHS
      · by_cases hmY : get_the_best cmp x xs = Y
        · have hYnotsrc : Y ∉ get_filtered
              (fun s => !(decide (get_the_best cmp x xs = s))) (x :: xs) :=
            fun hc => (mem_filter_ne.mp hc).2 hmY.symm
          have hYrest : Y ∉ details_get_ancestors cmp
              (get_filtered
                (fun s => !(decide (get_the_best cmp x xs = s))) (x :: xs)) [] := by
            intro hc
            rcases details_mem_cases cmp m _ _ Y (by omega) hc with h1 | h1
            · exact hYnotsrc h1
            · cases h1
          have hlast : (x :: xs).getLast? = some Y :=
            (get_the_best_isolated cmp Y xs x hisoY).mp hmY
          obtain ⟨tail, htail⟩ := reverse_cons_of_getLast hlast
          have hRHS : X ∉ (x :: xs).reverse.takeWhile
              (fun z => !(decide (z = Y))) := by
            rw [htail, List.takeWhile_cons]
            have hcond : ¬((!(decide (Y = Y))) = true) := by
              simp
            rw [if_neg hcond]
            exact List.not_mem_nil X
          simp only [precedes, if_neg hmX]
          rw [precedes_eq_false_of_not_mem X Y _ hYrest]
          exact iff_of_false (by simp) hRHS
        · have hXsrc : X ∈ get_filtered
              (fun s => !(decide (get_the_best cmp x xs = s))) (x :: xs) :=
            mem_filter_ne.mpr ⟨hX, fun he => hmX he.symm⟩
          have hYsrc : Y ∈ get_filtered
              (fun s => !(decide (get_the_best cmp x xs = s))) (x :: xs) :=
            mem_filter_ne.mpr ⟨hY, fun he => hmY he.symm⟩
          have hisoX2 : ∀ z ∈ get_filtered
              (fun s => !(decide (get_the_best cmp x xs = s))) (x :: xs),
              cmp X z = false ∧ cmp z X = false :=
            fun z hz => hisoX z (mem_filter_ne.mp hz).1
          have hisoY2 : ∀ z ∈ get_filtered
              (fun s => !(decide (get_the_best cmp x xs = s))) (x :: xs),
              cmp Y z = false ∧ cmp z Y = false :=
            fun z hz => hisoY z (mem_filter_ne.mp hz).1
          have ihres := ih
            (get_filtered
              (fun s => !(decide (get_the_best cmp x xs = s))) (x :: xs))
            X Y (by omega) hXY hXsrc hYsrc hisoX2 hisoY2
          have hpY : (fun s => !(decide (get_the_best cmp x xs = s))) Y
              = true := by
            simp only [Bool.not_eq_true', decide_eq_false_iff_not]
            exact hmY
          have hpX : (fun s => !(decide (get_the_best cmp x xs = s))) X
              = true := by
            simp only [Bool.not_eq_true', decide_eq_false_iff_not]
            exact hmX
          have hq_p : ∀ z, (fun z => !(decide (z = Y))) z = false →
              (fun s => !(decide (get_the_best cmp x xs = s))) z = true := by
            intro z hz
            by_cases hzy : z = Y
            · rw [hzy]
              exact hpY
            · simp [hzy] at hz
          have hrev : (x :: xs).reverse.filter
              (fun s => !(decide (get_the_best cmp x xs = s))) =
              (get_filtered
                (fun s => !(decide (get_the_best cmp x xs = s)))
                (x :: xs)).reverse := by
            rw [get_filtered_eq_filter, List.filter_reverse]
          have hRHSiff : (X ∈ (get_filtered
              (fun s => !(decide (get_the_best cmp x xs = s)))
              (x :: xs)).reverse.takeWhile (fun z => !(decide (z = Y)))) ↔
              (X ∈ (x :: xs).reverse.takeWhile (fun z => !(decide (z = Y)))) := by
            rw [← hrev,
              takeWhile_filter_comm
                (fun s => !(decide (get_the_best cmp x xs = s)))
                (fun z => !(decide (z = Y))) hq_p, List.mem_filter]
            constructor
            · exact fun h => h.1
            · exact fun h => ⟨h, hpX⟩
          simp only [precedes, if_neg hmX]
          exact ihres.trans hRHSiff

/-!
## Claim theorems
-/

/-- C1.  For every subtype predicate `cmp`, target `t` and universe `u` —
in particular when `t` occurs in `u`, possibly several times — the chain
produced by `get_ancestors` never contains `t` and never contains a
duplicate: `t` is erased from the universe before filtering, and each loop
round removes from the source every occurrence of the element it emits. -/
theorem c1_get_ancestors_no_target_no_dup (cmp : α → α → Bool) (t : α)
    (u : List α) :
    t ∉ get_ancestors cmp t u ∧ (get_ancestors cmp t u).Nodup := by
  have hsrc : t ∉ get_filtered (fun x => cmp x t) (remove_all t u) := by
    intro hc
    exact (mem_remove_all.mp (mem_get_filtered.mp hc).1).2 rfl
  constructor
  · intro hc
    rcases details_mem_cases cmp _ _ _ t (le_refl _) hc with h1 | h1
    · exact hsrc h1
    · cases h1
  · exact details_nodup cmp _ _ _ (le_refl _) List.nodup_nil
      (fun z _ hc => (List.not_mem_nil z) hc)

/-- C10.  The top-level `find_v` (counter parameter defaulted to the size of
the list) is `-1` exactly on the not-found case — the per-element `1 +`
offsets cancel the `-(N + 1)` base case — and therefore `contains`, defined
as `find_v ≠ -1`, decides membership. -/
theorem c10_find_contains_correct (l : List α) (t : α) :
    (t ∉ l → find_v t l = -1) ∧ (contains t l = true ↔ t ∈ l) :=
  ⟨fun h => find_v_of_not_mem h, contains_iff_mem⟩

/-- Witness for C10 at a concrete input. -/
theorem c10_find_contains_correct_witness :
    ((3 : ℕ) ∉ [5, 7] → find_v 3 [5, 7] = -1) ∧
      (contains 3 [5, 7] = true ↔ (3 : ℕ) ∈ [5, 7]) :=
  c10_find_contains_correct [5, 7] 3

/-- Counterexample to C6 as stated.  The claim says a top-level not-found
`find` returns `-(n + 1)` for a sequence of length `n`; on `[5]` (length 1,
token 3 absent) the code returns `-1`, not `-2`. -/
theorem c6_counterexample_not_found_value :
    (3 : ℕ) ∉ [5] ∧ find_v 3 [5] = -1 ∧ find_v 3 [5] ≠ -(1 + 1) := by
  refine ⟨by decide, by decide, by decide⟩

/-- C6 (amended).  For the inner `find` with explicit counter parameter `N`,
a not-found search over a list of length `n` returns `n - (N + 1)`: only the
empty-list base case itself is `-(N + 1)`, and each scanned element adds
`1`.  With the top-level default `N = n` the result is `-1`, not `-(n + 1)`. -/
theorem c6_find_not_found_offsets (l : List α) (t : α) (N : ℤ) (h : t ∉ l) :
    find t l N = (l.length : ℤ) - (N + 1) ∧ find_v t l = -1 :=
  ⟨find_of_not_mem h N, find_v_of_not_mem h⟩

/-- Witness for C6 (amended) at a concrete input. -/
theorem c6_find_not_found_offsets_witness :
    find 3 [5, 7] 9 = ((2 : ℤ) - (9 + 1)) ∧ find_v (3 : ℕ) [5, 7] = -1 := by
  have h := c6_find_not_found_offsets [5, 7] (3 : ℕ) 9 (by decide)
  simpa using h

/-- C5 (code bug).  `pop_back` is `pop_front ∘ invert` with no re-inversion,
so on `[0, 1, 2]` it returns the *reversed* remainder `[1, 0]` instead of
`[0, 1]`: the source's own name, comment and the spec all require the last
element removed with order preserved.  (The static_asserts of mpml.h lines
512-514 only exercise lists of length ≤ 2, where the reversal is invisible.) -/
theorem c5_pop_back_reverses_bug :
    pop_back ([0, 1, 2] : List ℕ) = [1, 0] ∧
      pop_back ([0, 1, 2] : List ℕ) ≠ [0, 1] := by
  refine ⟨rfl, by decide⟩

/-- Counterexample to C4 as stated.  On `[0, 1, 0]` the code keeps the
*first* occurrence of `0` (`[0, 1]`), while the spec's last-occurrence rule
(embodied by `dedupLast`, written from the spec's words) yields `[1, 0]`. -/
theorem c4_counterexample_last_occurrence :
    remove_duplicates ([0, 1, 0] : List ℕ) = [0, 1] ∧
      dedupLast ([0, 1, 0] : List ℕ) = [1, 0] ∧
      remove_duplicates ([0, 1, 0] : List ℕ) ≠ dedupLast [0, 1, 0] := by
  refine ⟨rfl, rfl, by decide⟩

/-- C4 (amended).  `remove_duplicates` retains, for each token occurring more
than once, only its *first* occurrence, and the retained tokens appear in the
left-to-right order of their first occurrences: it coincides with
`dedupFirst`, the scan that keeps an occurrence iff its token was not seen
earlier. -/
theorem c4_remove_duplicates_keeps_first (l : List α) :
    remove_duplicates l = dedupFirst l :=
  remove_duplicates_eq_dedupFirst_aux l.length l (le_refl _)

/-- C9.  `remove_duplicates` is idempotent: its output is duplicate-free, and
on a duplicate-free list it is the identity. -/
theorem c9_remove_duplicates_idempotent (l : List α) :
    remove_duplicates (remove_duplicates l) = remove_duplicates l :=
  remove_duplicates_of_nodup (remove_duplicates_nodup l)

/-- C2.  In the embedded diamond hierarchy, after the full run of
registrations of mpml.h (lines 549-566, yielding
`test_universe = [C, D, Z, H, I, I, E, T, L, B, A, J, A, G, K, A, F, W]`
at the read point), `get_ancestors(K, universe)` is exactly `[F, H, J, I]` —
`J` before `I`.  The same chain results from the registration order of the
spec §8 scenario (`spec_universe`). -/
theorem c2_K_ancestors_chain :
    get_ancestors unit_testing.isBase unit_testing.K unit_testing.test_universe =
      [unit_testing.F, unit_testing.H, unit_testing.J, unit_testing.I] ∧
    get_ancestors unit_testing.isBase unit_testing.K unit_testing.spec_universe =
      [unit_testing.F, unit_testing.H, unit_testing.J, unit_testing.I] :=
  ⟨rfl, rfl⟩

/-- Counterexample to C3 as stated.  Candidate set `S = [1, 2]` under the
everywhere-false (hence everywhere-incomparable) predicate: `1` first appears
before `2` (it lies in the prefix of `S` before the first `2`), yet the loop
emits `[2, 1]`, so `1` does **not** precede `2` in the output chain — the
documented first-appearance tie-break is the wrong way round. -/
theorem c3_counterexample_first_appearance :
    ((fun _ _ => false) : ℕ → ℕ → Bool) 1 2 = false ∧
    ((fun _ _ => false) : ℕ → ℕ → Bool) 2 1 = false ∧
    (1 : ℕ) ∈ ([1, 2] : List ℕ).takeWhile (fun z => !(decide (z = 2))) ∧
    details_get_ancestors (fun _ _ => false) ([1, 2] : List ℕ) [] = [2, 1] ∧
    precedes 1 2
      (details_get_ancestors (fun _ _ => false) ([1, 2] : List ℕ) []) = false :=
  ⟨rfl, rfl, by decide, rfl, rfl⟩

/-- C3 (amended).  The tie-break among incomparable candidates runs on *last*
occurrences and in the *reverse* direction: for candidates `X` and `Y`, each
incomparable under the predicate with every element of the candidate set `S`,
`X` precedes `Y` in the linearizer's output chain iff `X` still occurs after
the last occurrence of `Y` — i.e. iff `X`'s last occurrence in `S` comes
*after* `Y`'s last occurrence.  (`get_the_best` folds from the right, so a
candidate beaten by nothing is selected exactly when it is the last element
of the remaining source list.) -/
theorem c3_tie_break_last_occurrence (cmp : α → α → Bool) (S : List α)
    (X Y : α) (hXY : X ≠ Y) (hX : X ∈ S) (hY : Y ∈ S)
    (hisoX : ∀ z ∈ S, cmp X z = false ∧ cmp z X = false)
    (hisoY : ∀ z ∈ S, cmp Y z = false ∧ cmp z Y = false) :
    precedes X Y (details_get_ancestors cmp S []) = true ↔
      X ∈ S.reverse.takeWhile (fun z => !(decide (z = Y))) :=
  c3_main_aux cmp S.length S X Y (le_refl _) hXY hX hY hisoX hisoY

/-- Witness for C3 (amended) at a concrete input: in `S = [1, 2]` the token
`2` has the later last occurrence and indeed precedes `1` in the chain. -/
theorem c3_tie_break_last_occurrence_witness :
    precedes 2 1
        (details_get_ancestors (fun _ _ => false) ([1, 2] : List ℕ) []) = true ↔
      (2 : ℕ) ∈ ([1, 2] : List ℕ).reverse.takeWhile (fun z => !(decide (z = 1))) :=
  c3_tie_break_last_occurrence (fun _ _ => false) [1, 2] 2 1 (by decide)
    (by decide) (by decide) (by decide) (by decide)

/-- C7.  For a registry declared at point `d` with adds at strictly
increasing points: `resolve p` returns the entry defined at `p` when there is
one, otherwise the result of resolving `p - 1` (for `p` above the declaration
point), and any point at or before the declaration point — in particular any
point of a registry queried before anything was added — resolves to the empty
sequence rather than an error. -/
theorem c7_resolve_semantics (d : ℕ) (adds : List (ℕ × α)) (p : ℕ)
    (hv : ValidAdds d adds) :
    (∀ s, buildHist d adds p = some s → resolve (buildHist d adds) d p = s) ∧
    (buildHist d adds p = none → d < p →
      resolve (buildHist d adds) d p = resolve (buildHist d adds) d (p - 1)) ∧
    (p ≤ d → resolve (buildHist d adds) d p = []) := by
  obtain ⟨b, hG⟩ := good_buildHist hv
  refine ⟨fun s hs => resolve_of_entry _ _ _ _ hs, ?_,
    fun hp => resolve_le_decl hG p hp⟩
  intro hnone hlt
  cases p with
  | zero => omega
  | succ q =>
    simp only [resolve, hnone, if_pos hlt, Nat.add_sub_cancel]

/-- Witness for C7 at a concrete registry. -/
theorem c7_resolve_semantics_witness :
    (∀ s, buildHist 1 ([(3, 5), (6, 7)] : List (ℕ × ℕ)) 2 = some s →
      resolve (buildHist 1 ([(3, 5), (6, 7)] : List (ℕ × ℕ))) 1 2 = s) ∧
    (buildHist 1 ([(3, 5), (6, 7)] : List (ℕ × ℕ)) 2 = none → 1 < 2 →
      resolve (buildHist 1 ([(3, 5), (6, 7)] : List (ℕ × ℕ))) 1 2 =
        resolve (buildHist 1 ([(3, 5), (6, 7)] : List (ℕ × ℕ))) 1 (2 - 1)) ∧
    (2 ≤ 1 → resolve (buildHist 1 ([(3, 5), (6, 7)] : List (ℕ × ℕ))) 1 2 = []) :=
  c7_resolve_semantics 1 ([(3, 5), (6, 7)] : List (ℕ × ℕ)) 2
    (by unfold ValidAdds; simp [List.chain'_cons])

/-- C8.  For a registry history built by a declare at `d` followed by adds at
strictly increasing points, resolution is monotone: for `p1 ≤ p2`,
`resolve p1` is a prefix of `resolve p2` (each resolvable sequence extends
every earlier one through `push_back` chaining), and the sequence at the
declaration point is empty. -/
theorem c8_resolve_monotone (d : ℕ) (adds : List (ℕ × α)) (p1 p2 : ℕ)
    (hv : ValidAdds d adds) (h12 : p1 ≤ p2) :
    (resolve (buildHist d adds) d p1 <+: resolve (buildHist d adds) d p2) ∧
    resolve (buildHist d adds) d d = [] := by
  obtain ⟨b, hG⟩ := good_buildHist hv
  exact ⟨resolve_mono hG h12, resolve_le_decl hG d (le_refl d)⟩

/-- Witness for C8 at a concrete registry. -/
theorem c8_resolve_monotone_witness :
    (resolve (buildHist 1 ([(3, 5), (6, 7)] : List (ℕ × ℕ))) 1 2 <+:
      resolve (buildHist 1 ([(3, 5), (6, 7)] : List (ℕ × ℕ))) 1 7) ∧
    resolve (buildHist 1 ([(3, 5), (6, 7)] : List (ℕ × ℕ))) 1 1 = [] :=
  c8_resolve_monotone 1 ([(3, 5), (6, 7)] : List (ℕ × ℕ)) 2 7
    (by unfold ValidAdds; simp [List.chain'_cons]) (by omega)

end qcstudio.mpml
